import Mathlib

/-!
Verification development for an FP8 software model (codec, adder,
multipliers, MAC units), shallowly embedding the Python sources under
`src/sw` (`utils/Decoder.py`, `utils/Adder.py`, `utils/Multiplier.py`,
`Matmul.py`).

Modelling conventions:

* An encoded FP8 value is an 8-character bit string `[sign][exp][mant]`.
  We model a bit string of length 8 by the natural number it denotes in
  binary (`0 ≤ p ≤ 255`).  The bit-field operations of the source
  (`b >> k & mask`, slicing of an 8-char string) become `p / 2^k % 2^w`,
  the same function on the denoted value.
* Python `float` arithmetic is modelled by exact rationals `ℚ`.  Every
  quantity the source computes on its reachable inputs (decoded FP8
  values, their products, scaled mantissa fractions) is exactly
  representable in an IEEE double; `math.floor(math.log2 x)` is exact on
  those inputs, and Python's `round` is round-half-to-even, so the
  rational model agrees bit-for-bit with the source.  Python's `-0.0` is
  identified with the rational `0`: the only observations the source
  makes of a decoded value (`== 0`, `< 0`, `isnan`, `isinf`) agree with
  that identification.
* `float('nan')` / `float('inf')` are modelled by an inductive `EFloat`
  wrapper around `ℚ`.
* An uncaught Python exception (e.g. `int('input pass', 2)` on a
  non-binary string) is modelled by `Option`/`none`.
* `math.floor ∘ math.log2` and `int.bit_length` are modelled by
  fuel-based recursions (`natLog2`, `flog2`) characterised only by the
  power-of-two bracketing that uniquely determines them.
-/

/-- The four FP8 formats of `FP8_Codec.FORMATS`. -/
inductive Fmt | e2m5 | e3m4 | e4m3 | e5m2
deriving DecidableEq, Repr

namespace Fmt

/-- Exponent field width in bits. -/
def eBits : Fmt → ℕ
  | e2m5 => 2 | e3m4 => 3 | e4m3 => 4 | e5m2 => 5

/-- Mantissa field width in bits. -/
def mBits : Fmt → ℕ
  | e2m5 => 5 | e3m4 => 4 | e4m3 => 3 | e5m2 => 2

/-- Exponent bias `2^(e_bits-1) - 1`, as in `_get_format_params`. -/
def bias (f : Fmt) : ℕ := 2 ^ (f.eBits - 1) - 1

/-- All-ones exponent field value `(1 << e_bits) - 1`. -/
def allOnes (f : Fmt) : ℕ := 2 ^ f.eBits - 1

end Fmt

/-- Sign bit of a packed pattern: `(b >> (e_bits + m_bits)) & 1`, and
`e_bits + m_bits = 7` in every format. -/
def signBit (p : ℕ) : ℕ := p / 2 ^ 7 % 2

/-- Exponent field: `(b >> m_bits) & ((1 << e_bits) - 1)`. -/
def expField (f : Fmt) (p : ℕ) : ℕ := p / 2 ^ f.mBits % 2 ^ f.eBits

/-- Mantissa field: `b & ((1 << m_bits) - 1)`. -/
def mantField (f : Fmt) (p : ℕ) : ℕ := p % 2 ^ f.mBits

/-- Assemble a packed pattern from sign, exponent field and mantissa
field (the source's string concatenation `sign + exp_bin + mant_bin`,
read as a binary numeral). -/
def pat (f : Fmt) (s : Bool) (e mt : ℕ) : ℕ :=
  (cond s 1 0) * 2 ^ 7 + e * 2 ^ f.mBits + mt

/-- Classification flags of `FP8_Codec.decode`. -/
inductive FClass | zero | denormalized | normalized | infinity | nanC
deriving DecidableEq, Repr

/-- Python float values produced/consumed by the codec. -/
inductive EFloat
  | nanV
  | inf (neg : Bool)
  | fin (q : ℚ)
deriving DecidableEq, Repr

namespace EFloat

/-- Rational payload of a finite value (junk `0` otherwise). -/
def toQ : EFloat → ℚ
  | fin q => q
  | _ => 0

/-- Whether the value is finite. -/
def isFin : EFloat → Bool
  | fin _ => true
  | _ => false

end EFloat

/-- Classification part of `FP8_Codec.decode`. -/
def flagOf (f : Fmt) (p : ℕ) : FClass :=
  let e := expField f p
  let mt := mantField f p
  if e = 0 then
    (if mt = 0 then .zero else .denormalized)
  else if e = f.allOnes then
    (if mt = 0 then .infinity else .nanC)
  else .normalized

/-- Value part of `FP8_Codec.decode` (first component of the returned
tuple).  `-0.0` is modelled by `0`. -/
def decodeV (f : Fmt) (p : ℕ) : EFloat :=
  let s := signBit p
  let e := expField f p
  let mt := mantField f p
  let sgn : ℚ := if s = 1 then -1 else 1
  if e = 0 then
    (if mt = 0 then .fin 0
     else .fin (sgn * ((mt : ℚ) / 2 ^ f.mBits * 2 ^ ((1 : ℤ) - f.bias))))
  else if e = f.allOnes then
    (if mt = 0 then .inf (s = 1) else .nanV)
  else .fin (sgn * ((1 + (mt : ℚ) / 2 ^ f.mBits) * 2 ^ ((e : ℤ) - f.bias)))

/-- The rational value of a pattern (`0` for Inf/NaN patterns). -/
def decQ (f : Fmt) (p : ℕ) : ℚ := (decodeV f p).toQ

/-- Fuel-based floor-log2 on naturals: `lg2F fuel n = ⌊log2 n⌋` when
`1 ≤ n ≤ fuel`. -/
def lg2F : ℕ → ℕ → ℕ
  | 0, _ => 0
  | fuel + 1, n => if n ≤ 1 then 0 else lg2F fuel (n / 2) + 1

/-- `⌊log2 n⌋` for `n ≥ 1`; models `int.bit_length() - 1` on positive
ints and `floor(log2 n)`. -/
def natLog2 (n : ℕ) : ℕ := lg2F n n

/-- Fuel-based helper: smallest `j` with `a ≤ b * 2^j` (for `b ≥ 1`,
enough fuel). -/
def clg2F : ℕ → ℕ → ℕ → ℕ
  | 0, _, _ => 0
  | fuel + 1, a, b => if a ≤ b then 0 else clg2F fuel a (2 * b) + 1

/-- `⌊log2 x⌋` on positive rationals; models the exact value of the
source's `math.floor(math.log2 x))` (junk on nonpositive input). -/
def flog2 (x : ℚ) : ℤ :=
  let p := x.num.toNat
  let q := x.den
  if q ≤ p then (natLog2 (p / q) : ℤ)
  else -(clg2F q q p : ℤ)

/-- Round half to even on rationals: what Python's built-in `round`
performs on the exact scaled-mantissa arguments the codec feeds it. -/
def rndE (x : ℚ) : ℤ :=
  let n := ⌊x⌋
  let fr := x - n
  if fr < 1/2 then n
  else if 1/2 < fr then n + 1
  else if Even n then n else n + 1

/-- The magnitude-encoding core of `FP8_Codec.encode` for a positive
finite input, returning `(exponent field, mantissa field)`.  Mirrors
the source branch by branch (`exp_unbiased = floor(log2 x)` is
`flog2 x`). -/
def encodeMag (f : Fmt) (x : ℚ) : ℕ × ℕ :=
  let mB := f.mBits
  let maxExp := f.allOnes
  let k : ℤ := flog2 x
  let expRaw : ℤ := k + f.bias
  if (maxExp : ℤ) ≤ expRaw then (maxExp, 0)
  else if expRaw ≤ 0 then
    if expRaw < -((mB : ℤ) - 1) then (0, 0)
    else
      let fraction := x / 2 ^ ((1 : ℤ) - f.bias)
      let mant := rndE (fraction * 2 ^ mB)
      if (2 ^ mB : ℤ) ≤ mant then (1, 0)
      else if mant = 0 then (0, 0)
      else (0, mant.toNat)
  else
    let fraction := x / 2 ^ k - 1
    let mant := rndE (fraction * 2 ^ mB)
    if mant = 2 ^ mB then
      (if (maxExp : ℤ) ≤ expRaw + 1 then (maxExp, 0) else ((expRaw + 1).toNat, 0))
    else (expRaw.toNat, mant.toNat)

/-- `FP8_Codec.encode`, producing the packed pattern.  The NaN branch
returns `'0' + '1'*e_bits + '1' + '0'*(m_bits-1)` (top mantissa bit
set); the zero branch returns the all-zero string — and `-0.0 == 0`
in Python, so negative zero also lands there. -/
def encodeE (f : Fmt) : EFloat → ℕ
  | .nanV => pat f false f.allOnes (2 ^ (f.mBits - 1))
  | .inf s => pat f s f.allOnes 0
  | .fin q =>
      if q = 0 then 0
      else
        let em := encodeMag f |q|
        pat f (decide (q < 0)) em.1 em.2

/-- Largest finite representable magnitude of a format:
`(2 - 2^-m) * 2^(maxExp - 1 - bias)`. -/
def maxNormal (f : Fmt) : ℚ :=
  (2 - 2 ^ (-(f.mBits : ℤ))) * 2 ^ ((f.allOnes : ℤ) - 1 - f.bias)

/-- One unit in the last place at magnitude `x` (at the denormal
spacing once `x` is below the normal range). -/
def ulpQ (f : Fmt) (x : ℚ) : ℚ :=
  2 ^ (max (flog2 |x|) (1 - (f.bias : ℤ)) - f.mBits)

/-- `Multiplier._em_cul`.  The source receives the exponent as a binary
*string* and tests `exp == "0" * self.exp_bits`; a binary string equals
`'0' * e_bits` iff it has length `e_bits` and denotes `0`, so the model
takes the field's bit-width explicitly.  `_unpakcing` passes width
`e_bits`; `FASA` passes width `e_bits + 1`.  Returns
`[exponent_value, mantissa_value]` where the mantissa loop accumulates
`man/2^m` on top of a start of `-1` (denormal) or `0` (normal). -/
def emCul (f : Fmt) (expWidth expVal man : ℕ) : ℤ × ℚ :=
  if expWidth = f.eBits ∧ expVal = 0 then
    ((1 : ℤ) - f.bias, (man : ℚ) / 2 ^ f.mBits - 1)
  else
    ((expVal : ℤ) - f.bias, (man : ℚ) / 2 ^ f.mBits)

/-- `Multiplier.multiply` (exact algorithm), real-valued result. -/
def mulVal (f : Fmt) (a b : ℕ) : ℚ :=
  let sign := signBit a ^^^ signBit b
  let x := emCul f f.eBits (expField f a) (mantField f a)
  let y := emCul f f.eBits (expField f b) (mantField f b)
  let v := (1 + x.2 + y.2 + x.2 * y.2) * 2 ^ (x.1 + y.1)
  if sign = 1 then -v else v

/-- The `lm` approximation level of `Multiplier.L_Mul`. -/
def lmOf (f : Fmt) : ℕ :=
  if f.mBits ≤ 3 then f.mBits else if f.mBits = 4 then 3 else 4

/-- `Multiplier.L_Mul`, real-valued result. -/
def lMulVal (f : Fmt) (a b : ℕ) : ℚ :=
  let sign := signBit a ^^^ signBit b
  let x := emCul f f.eBits (expField f a) (mantField f a)
  let y := emCul f f.eBits (expField f b) (mantField f b)
  let v := (1 + x.2 + y.2 + 2 ^ (-(lmOf f : ℤ))) * 2 ^ (x.1 + y.1)
  if sign = 1 then -v else v

/-- `Multiplier.FASA`, real-valued result.  `mul1 = exp1 + man1` is the
concatenation of the two fields (a 7-bit string); `int_bin_adder` adds
the denoted values exactly; `"{0:0>8}".format` pads the sum to 8 bits
(the sum is at most 254, so never wider); the slices
`sum[0 : e_bits+1]` / `sum[e_bits+1 : 8]` of the 8-bit string are the
high `e_bits + 1` bits and low `7 - e_bits = m_bits` bits of the sum. -/
def fasaVal (f : Fmt) (a b : ℕ) : ℚ :=
  let sign := signBit a ^^^ signBit b
  let m1 := expField f a * 2 ^ f.mBits + mantField f a
  let m2 := expField f b * 2 ^ f.mBits + mantField f b
  let sum := m1 + m2
  let expv := sum / 2 ^ f.mBits
  let manv := sum % 2 ^ f.mBits
  let xy := emCul f (f.eBits + 1) expv manv
  let v := (1 + xy.2) * 2 ^ (xy.1 - f.bias)
  if sign = 1 then -v else v

/-- `Multiplier.multiply` with `bin_output=True` (re-encode through the
codec), as used by `FP8MatrixMultiplier`. -/
def mulBin (f : Fmt) (a b : ℕ) : ℕ := encodeE f (.fin (mulVal f a b))

/-- `Multiplier.L_Mul` with `bin_output=True`. -/
def lMulBin (f : Fmt) (a b : ℕ) : ℕ := encodeE f (.fin (lMulVal f a b))

/-- `Multiplier.FASA` with `bin_output=True`. -/
def fasaBin (f : Fmt) (a b : ℕ) : ℕ := encodeE f (.fin (fasaVal f a b))

/-- The canonical NaN pattern `Adder.fp_bin_adder` returns:
`'0' + '1'*EXP_BITS + '0'*(MANT_BITS-1) + '1'` (lowest mantissa bit
set; every format has `MANT_BITS > 0`). -/
def canonNaNAdd (f : Fmt) : ℕ := pat f false f.allOnes 1

/-- `Adder.fp_bin_adder`'s local `is_nan(e, m)`:
`e == EXP_ALL_ONES and m != 0`. -/
def isNanPat (f : Fmt) (p : ℕ) : Prop :=
  expField f p = f.allOnes ∧ mantField f p ≠ 0

/-- `Adder.fp_bin_adder`'s local `is_inf(e, m)`:
`e == EXP_ALL_ONES and m == 0`. -/
def isInfPat (f : Fmt) (p : ℕ) : Prop :=
  expField f p = f.allOnes ∧ mantField f p = 0

/-- The zero-operand test of `fp_bin_adder`: `e == 0 and m == 0`. -/
def isZeroPat (f : Fmt) (p : ℕ) : Prop :=
  expField f p = 0 ∧ mantField f p = 0

instance (f : Fmt) (p : ℕ) : Decidable (isNanPat f p) := by
  unfold isNanPat; infer_instance

instance (f : Fmt) (p : ℕ) : Decidable (isInfPat f p) := by
  unfold isInfPat; infer_instance

instance (f : Fmt) (p : ℕ) : Decidable (isZeroPat f p) := by
  unfold isZeroPat; infer_instance

/-- `Adder.fp_bin_adder`.  `ma |= 1 << MANT_BITS` is `ma + 2^M` since
`ma < 2^M`; `mant_res.bit_length() - 1` is `natLog2` of the (positive)
magnitude; the final subnormal `while mant_res >= 1 << M: mant_res >>= 1`
loop right-shifts by `bit_length - M` when the magnitude is too wide. -/
def fpAdd (f : Fmt) (aP bP : ℕ) : ℕ :=
  let M := f.mBits
  let AO := f.allOnes
  let sa := signBit aP; let ea := expField f aP; let ma := mantField f aP
  let sb := signBit bP; let eb := expField f bP; let mb := mantField f bP
  if isNanPat f aP ∨ isNanPat f bP then canonNaNAdd f
  else if isInfPat f aP ∧ isInfPat f bP then
    (if sa ≠ sb then canonNaNAdd f else pat f (sa = 1) AO 0)
  else if isInfPat f aP then pat f (sa = 1) AO 0
  else if isInfPat f bP then pat f (sb = 1) AO 0
  else if isZeroPat f aP then bP
  else if isZeroPat f bP then aP
  else
    let ma1 := if ea ≠ 0 then ma + 2 ^ M else ma
    let mb1 := if eb ≠ 0 then mb + 2 ^ M else mb
    let expRes := max ea eb
    let ma2 := if eb > ea then ma1 / 2 ^ (eb - ea) else ma1
    let mb2 := if ea > eb then mb1 / 2 ^ (ea - eb) else mb1
    let mres : ℤ := (if sa = 1 then -(ma2 : ℤ) else (ma2 : ℤ)) +
                    (if sb = 1 then -(mb2 : ℤ) else (mb2 : ℤ))
    if mres = 0 then 0
    else
      let sR : Bool := decide (mres < 0)
      let mag := mres.natAbs
      let msb := natLog2 mag
      let mag2 := if M < msb then mag / 2 ^ (msb - M)
                  else if msb < M ∧ 0 < expRes then mag * 2 ^ (M - msb)
                  else mag
      let eR : ℤ := if M < msb then (expRes : ℤ) + (msb - M : ℕ)
                    else if msb < M ∧ 0 < expRes then (expRes : ℤ) - (M - msb : ℕ)
                    else (expRes : ℤ)
      if (AO : ℤ) ≤ eR then pat f sR AO 0
      else if 0 < eR then pat f sR eR.toNat (mag2 % 2 ^ M)
      else pat f sR 0
        (if mag2 < 2 ^ M then mag2 else mag2 / 2 ^ (natLog2 mag2 + 1 - M))

/-- A value flowing through the MAC units of `FP8MatrixMultiplier`: an
FP8 bit string (`bits`), or a non-bit-string marker such as the
sentinel `'pass'` (`str`). -/
inductive MacV
  | bits (p : ℕ)
  | str (s : String)
deriving DecidableEq, Repr

/-- `get_flag` classifies as Inf or NaN (the failure test of the MAC
units). -/
def isSpec (f : Fmt) (p : ℕ) : Prop :=
  flagOf f p = .infinity ∨ flagOf f p = .nanC

instance (f : Fmt) (p : ℕ) : Decidable (isSpec f p) := by
  unfold isSpec; infer_instance

/-- `FP8MatrixMultiplier.mac_unit` (exact multiply).  `none` models an
uncaught exception (`int(v, 2)` on a non-binary string inside
`get_flag` or `fp_bin_adder`). -/
def macUnit (f : Fmt) (a b acc : MacV) : Option MacV :=
  if a = .str "pass" ∨ b = .str "pass" ∨ acc = .str "pass" then some (.str "pass")
  else
    match a, b with
    | .bits pa, .bits pb =>
      if isSpec f pa ∨ isSpec f pb then some (.str "pass")
      else
        let prod := mulBin f pa pb
        if isSpec f prod then some (.str "pass")
        else
          match acc with
          | .bits pacc =>
            let r := fpAdd f pacc prod
            if isSpec f r then some (.str "pass") else some (.bits r)
          | .str _ => none
    | _, _ => none

/-- `FP8MatrixMultiplier.lmul_mac_unit`.  Note the three *distinct*
return strings `'input pass'`, `'product pass'`, `'accumulation pass'`
of the source. -/
def lmulMacUnit (f : Fmt) (a b acc : MacV) : Option MacV :=
  if a = .str "pass" ∨ b = .str "pass" ∨ acc = .str "pass" then some (.str "pass")
  else
    match a, b with
    | .bits pa, .bits pb =>
      if isSpec f pa ∨ isSpec f pb then some (.str "input pass")
      else
        let prod := lMulBin f pa pb
        if isSpec f prod then some (.str "product pass")
        else
          match acc with
          | .bits pacc =>
            let r := fpAdd f pacc prod
            if isSpec f r then some (.str "accumulation pass") else some (.bits r)
          | .str _ => none
    | _, _ => none

/-- `FP8MatrixMultiplier.fasa_mac_unit`. -/
def fasaMacUnit (f : Fmt) (a b acc : MacV) : Option MacV :=
  if a = .str "pass" ∨ b = .str "pass" ∨ acc = .str "pass" then some (.str "pass")
  else
    match a, b with
    | .bits pa, .bits pb =>
      if isSpec f pa ∨ isSpec f pb then some (.str "pass")
      else
        let prod := fasaBin f pa pb
        if isSpec f prod then some (.str "pass")
        else
          match acc with
          | .bits pacc =>
            let r := fpAdd f pacc prod
            if isSpec f r then some (.str "pass") else some (.bits r)
          | .str _ => none
    | _, _ => none

/-- `FP8_Codec._get_format_params`: `(e_bits, m_bits, bias)` for a
format name, or a raised `ValueError` (`none`) for anything else. -/
def getFormatParams (s : String) : Option (ℕ × ℕ × ℕ) :=
  if s = "e2m5" then some (2, 5, 1)
  else if s = "e3m4" then some (3, 4, 3)
  else if s = "e4m3" then some (4, 3, 7)
  else if s = "e5m2" then some (5, 2, 15)
  else none

/-- Format-name resolution into the `Fmt` type. -/
def fmtOfString (s : String) : Option Fmt :=
  if s = "e2m5" then some .e2m5
  else if s = "e3m4" then some .e3m4
  else if s = "e4m3" then some .e4m3
  else if s = "e5m2" then some .e5m2
  else none

/-- `FP8_Codec.decode` at the public string-keyed interface: the format
lookup happens first and raises on an unknown name. -/
def decodeChecked (s : String) (p : ℕ) : Option (EFloat × FClass) :=
  (fmtOfString s).map fun f => (decodeV f p, flagOf f p)

/-- `FP8_Codec.encode` at the public string-keyed interface. -/
def encodeChecked (s : String) (x : EFloat) : Option ℕ :=
  (fmtOfString s).map fun f => encodeE f x

/-- `Adder.__init__`: stores `(e_bits, m_bits)` from
`_get_format_params`, which raises on an unknown name. -/
def mkAdder (s : String) : Option (ℕ × ℕ) :=
  (getFormatParams s).map fun t => (t.1, t.2.1)

/-- `Multiplier.__init__`: stores `(e_bits, m_bits, bias)` from
`_get_format_params`. -/
def mkMultiplier (s : String) : Option (ℕ × ℕ × ℕ) := getFormatParams s

/-- `FP8MatrixMultiplier.__init__`: looks the format up the same way. -/
def mkMatrixMultiplier (s : String) : Option (ℕ × ℕ) :=
  (getFormatParams s).map fun t => (t.1, t.2.1)

/-- The claim-side formula for `L_Mul` (C8), written from the claim's
words: `(-1)^(sa xor sb) * (1 + fa + fb + 2^(-lm)) * 2^(ea+eb)` where
denormal operands get exponent `1 - bias` and no implicit 1 (so
`1 + fa` is the denormal significand `man/2^m`), and the `lm` policy
table is `m ≤ 3 → m`, `m = 4 → 3`, `m ≥ 5 → 4`. -/
def lMulClaim (f : Fmt) (a b : ℕ) : ℚ :=
  let m := f.mBits
  let ea : ℤ := if expField f a = 0 then 1 - f.bias else (expField f a : ℤ) - f.bias
  let fa : ℚ := if expField f a = 0 then (mantField f a : ℚ) / 2 ^ m - 1
                else (mantField f a : ℚ) / 2 ^ m
  let eb : ℤ := if expField f b = 0 then 1 - f.bias else (expField f b : ℤ) - f.bias
  let fb : ℚ := if expField f b = 0 then (mantField f b : ℚ) / 2 ^ m - 1
                else (mantField f b : ℚ) / 2 ^ m
  let lm : ℕ := if m ≤ 3 then m else if m = 4 then 3 else 4
  (-1 : ℚ) ^ (signBit a ^^^ signBit b) *
    ((1 + fa + fb + 2 ^ (-(lm : ℤ))) * 2 ^ (ea + eb))

/-- The claim-side formula for `FASA` (C9), written from the claim's
words: add the concatenated fields, split the 8-bit sum into a
`(e_bits+1)`-bit exponent field and an `m_bits`-bit mantissa field,
reconstruct by the *same rule used for operand unpacking* (an all-zero
exponent field is a denormal: exponent `1 - bias`, no implicit 1),
subtract the bias once more, and apply the XOR sign. -/
def fasaClaim (f : Fmt) (a b : ℕ) : ℚ :=
  let m := f.mBits
  let sum := (expField f a * 2 ^ m + mantField f a) +
             (expField f b * 2 ^ m + mantField f b)
  let expv := sum / 2 ^ m
  let manv := sum % 2 ^ m
  let e : ℤ := if expv = 0 then 1 - f.bias else (expv : ℤ) - f.bias
  let fr : ℚ := if expv = 0 then (manv : ℚ) / 2 ^ m - 1 else (manv : ℚ) / 2 ^ m
  (-1 : ℚ) ^ (signBit a ^^^ signBit b) * ((1 + fr) * 2 ^ (e - f.bias))

/-- The amended formula for `FASA`: identical to `fasaClaim` except
that the reconstruction *always* uses the normal-number rule (implicit
leading 1, exponent value = field value − bias), because the source
passes a `(e_bits+1)`-character exponent string to `_em_cul`, whose
denormal test compares against the `e_bits`-character string
`'0' * e_bits` and therefore never fires. -/
def fasaAmend (f : Fmt) (a b : ℕ) : ℚ :=
  let m := f.mBits
  let sum := (expField f a * 2 ^ m + mantField f a) +
             (expField f b * 2 ^ m + mantField f b)
  let expv := sum / 2 ^ m
  let manv := sum % 2 ^ m
  (-1 : ℚ) ^ (signBit a ^^^ signBit b) *
    ((1 + (manv : ℚ) / 2 ^ m) * 2 ^ (((expv : ℤ) - f.bias) - f.bias))

/-! ### General facts: classification bridges -/

lemma allOnes_ne_zero (f : Fmt) : f.allOnes ≠ 0 := by cases f <;> decide

lemma flag_zero_iff (f : Fmt) (p : ℕ) : flagOf f p = .zero ↔ isZeroPat f p := by
  simp only [flagOf, isZeroPat]
  have := allOnes_ne_zero f
  split_ifs <;> simp_all

lemma flag_inf_iff (f : Fmt) (p : ℕ) : flagOf f p = .infinity ↔ isInfPat f p := by
  simp only [flagOf, isInfPat]
  have := allOnes_ne_zero f
  split_ifs <;> simp_all
  omega

lemma flag_nan_iff (f : Fmt) (p : ℕ) : flagOf f p = .nanC ↔ isNanPat f p := by
  simp only [flagOf, isNanPat]
  have := allOnes_ne_zero f
  split_ifs <;> simp_all
  omega

lemma isZeroPat_not_nan (f : Fmt) (p : ℕ) (h : isZeroPat f p) : ¬ isNanPat f p :=
  fun hn => allOnes_ne_zero f (h.1 ▸ hn.1).symm

lemma isZeroPat_not_inf (f : Fmt) (p : ℕ) (h : isZeroPat f p) : ¬ isInfPat f p :=
  fun hn => allOnes_ne_zero f (h.1 ▸ hn.1).symm

lemma signXor_cases (a b : ℕ) : signBit a ^^^ signBit b = 0 ∨ signBit a ^^^ signBit b = 1 := by
  unfold signBit
  rcases Nat.mod_two_eq_zero_or_one (a / 2 ^ 7) with h | h <;>
    rcases Nat.mod_two_eq_zero_or_one (b / 2 ^ 7) with h' | h' <;>
      rw [h, h'] <;> decide

/-! ### C4: fp_add on NaN and infinity operands -/

/-- C4.  For every format: `fp_add` with a NaN-classified operand
returns a NaN-classified result; `fp_add(+inf, -inf)` is NaN-classified;
`fp_add(+inf, +inf)` is `+inf`. -/
theorem fp_add_specials (f : Fmt) (a b : ℕ) :
    ((flagOf f a = .nanC ∨ flagOf f b = .nanC) → flagOf f (fpAdd f a b) = .nanC) ∧
    flagOf f (fpAdd f (pat f false f.allOnes 0) (pat f true f.allOnes 0)) = .nanC ∧
    fpAdd f (pat f false f.allOnes 0) (pat f false f.allOnes 0) = pat f false f.allOnes 0 := by
  refine ⟨fun h => ?_, ?_, ?_⟩
  · rw [flag_nan_iff, flag_nan_iff] at h
    simp only [fpAdd]
    rw [if_pos h]
    cases f <;> decide
  · cases f <;> decide
  · cases f <;> decide

/-- Witness for `fp_add_specials` at format e3m4, a NaN operand
`0 111 1001` and operand `0 001 0000`. -/
theorem fp_add_specials_witness :
    flagOf .e3m4 121 = .nanC ∧ flagOf .e3m4 (fpAdd .e3m4 121 16) = .nanC :=
  ⟨by decide, (fp_add_specials .e3m4 121 16).1 (Or.inl (by decide))⟩

/-! ### C7: adding zero -/

/-- C7 counterexample.  The pattern 128 (`10000000`, negative zero) is
not infinity- or NaN-classified, 0 (`00000000`) is a zero pattern, yet
`fp_bin_adder` returns `00000000`, not the first operand: the first
zero shortcut `if ea == 0 and ma == 0: return b_bin` fires. -/
theorem fp_add_zero_identity_cex :
    flagOf .e3m4 128 ≠ .infinity ∧ flagOf .e3m4 128 ≠ .nanC ∧
    isZeroPat .e3m4 0 ∧ fpAdd .e3m4 128 0 = 0 ∧ (0 : ℕ) ≠ 128 := by decide

/-- C7 amended: for every pattern `a` classified neither infinity nor
NaN *nor zero*, and every zero pattern `z`, `fp_add(a, z) = a`. -/
theorem fp_add_zero_identity (f : Fmt) (a z : ℕ)
    (ha1 : flagOf f a ≠ .infinity) (ha2 : flagOf f a ≠ .nanC)
    (ha3 : flagOf f a ≠ .zero) (hz : flagOf f z = .zero) :
    fpAdd f a z = a := by
  rw [flag_zero_iff] at hz
  have hza : ¬ isZeroPat f a := fun h => ha3 ((flag_zero_iff f a).2 h)
  have hna : ¬ isNanPat f a := fun h => ha2 ((flag_nan_iff f a).2 h)
  have hia : ¬ isInfPat f a := fun h => ha1 ((flag_inf_iff f a).2 h)
  have hnz : ¬ isNanPat f z := isZeroPat_not_nan f z hz
  have hiz : ¬ isInfPat f z := isZeroPat_not_inf f z hz
  simp only [fpAdd]
  rw [if_neg (by tauto), if_neg (fun h => hia h.1), if_neg hia, if_neg hiz,
    if_neg hza, if_pos hz]

/-- Witness for `fp_add_zero_identity`: `0.25 + (+0) = 0.25` in e3m4. -/
theorem fp_add_zero_identity_witness :
    (flagOf .e3m4 16 ≠ .infinity ∧ flagOf .e3m4 16 ≠ .nanC ∧
     flagOf .e3m4 16 ≠ .zero ∧ flagOf .e3m4 0 = .zero) ∧
    fpAdd .e3m4 16 0 = 16 :=
  ⟨by decide,
   fp_add_zero_identity .e3m4 16 0 (by decide) (by decide) (by decide) (by decide)⟩

/-! ### C5: the canonical NaN pattern fp_add returns -/

/-- C5 counterexample.  `0 111 1001` (121) is a NaN pattern in e3m4,
but `fp_bin_adder(121, 16)` returns `0 111 0001` (113, lowest mantissa
bit set), not the claimed `0 111 1000` (120, top mantissa bit set). -/
theorem fp_add_canonical_nan_cex :
    isNanPat .e3m4 121 ∧ fpAdd .e3m4 121 16 = 113 ∧
    (113 : ℕ) ≠ pat .e3m4 false (Fmt.allOnes .e3m4) (2 ^ (Fmt.mBits .e3m4 - 1)) := by
  decide

/-- C5 amended: on a NaN operand, or two infinities of opposite sign,
`fp_bin_adder` returns sign 0, exponent all ones, and a mantissa with
only the *lowest* bit set (`canonNaNAdd`). -/
theorem fp_add_canonical_nan (f : Fmt) (a b : ℕ)
    (h : isNanPat f a ∨ isNanPat f b ∨
         (isInfPat f a ∧ isInfPat f b ∧ signBit a ≠ signBit b)) :
    fpAdd f a b = canonNaNAdd f := by
  simp only [fpAdd]
  rcases h with h | h | ⟨hia, hib, hs⟩
  · rw [if_pos (Or.inl h)]
  · rw [if_pos (Or.inr h)]
  · rw [if_neg (by rintro (hn | hn); exacts [hn.2 hia.2, hn.2 hib.2]),
      if_pos ⟨hia, hib⟩, if_pos hs]

/-- Witness for `fp_add_canonical_nan`: `+inf + -inf` in e3m4
(patterns `0 111 0000` = 112 and `1 111 0000` = 240). -/
theorem fp_add_canonical_nan_witness :
    (isInfPat .e3m4 112 ∧ isInfPat .e3m4 240 ∧ signBit 112 ≠ signBit 240) ∧
    fpAdd .e3m4 112 240 = canonNaNAdd .e3m4 :=
  ⟨by decide, fp_add_canonical_nan .e3m4 112 240 (Or.inr (Or.inr (by decide)))⟩

/-! ### C6: the end-to-end e3m4 scenario -/

unseal Rat.mul Rat.inv Rat.add Rat.sub in
/-- C6 counterexample.  In e3m4, `encode(0.25)` is `00010000` (16):
0.25 has unbiased exponent −2, biased exponent 1, zero mantissa.  The
claimed bit string `00011000` (24) decodes to 0.375, not 0.25. -/
theorem e3m4_scenario_cex : encodeE .e3m4 (.fin (1/4)) = 16 ∧ (16 : ℕ) ≠ 24 := by
  decide

unseal Rat.mul Rat.inv Rat.add Rat.sub in
/-- C6 amended: in e3m4, `encode(0.25) = 00010000` (16),
`encode(-1.0) = 10110000` (176), and `fp_add(00010000, 00010000)`
decodes to 0.5. -/
theorem e3m4_scenario :
    encodeE .e3m4 (.fin (1/4)) = 16 ∧ encodeE .e3m4 (.fin (-1)) = 176 ∧
    decodeV .e3m4 (fpAdd .e3m4 16 16) = .fin (1/2) := by
  decide

/-! ### C1: decode-then-encode roundtrip -/

unseal Rat.mul Rat.inv Rat.add Rat.sub in
/-- C1 counterexample.  The negative-zero pattern 128 (`10000000`) is
not a NaN pattern, decodes to `-0.0`, and `-0.0 == 0` in Python, so
`encode` returns the all-zero pattern `00000000` ≠ `10000000`. -/
theorem roundtrip_cex :
    ¬ isNanPat .e3m4 128 ∧ encodeE .e3m4 (decodeV .e3m4 128) = 0 ∧ (0 : ℕ) ≠ 128 := by
  decide

set_option maxRecDepth 10000 in
unseal Rat.mul Rat.inv Rat.add Rat.sub in
/-- C1 amended: for every format and every 8-bit pattern, encode of the
decoded value returns the original pattern, except that NaN patterns
canonicalise to `0 ++ 1*e ++ 10*(m-1)` and the negative-zero pattern
128 maps to the positive-zero pattern 0. -/
theorem decode_encode_roundtrip (f : Fmt) (p : Fin 256) :
    encodeE f (decodeV f p.val) =
      (if isNanPat f p.val then pat f false f.allOnes (2 ^ (f.mBits - 1))
       else if p.val = 128 then 0 else p.val) := by
  revert p; cases f <;> decide

/-! ### C3: MAC sticky-sentinel behaviour -/

unseal Rat.mul Rat.inv Rat.add Rat.sub in
/-- C3.  `lmul_mac_unit` does not return the terminal sentinel
`'pass'`: on an infinity operand it returns the distinct string
`'input pass'`, which the sticky test `v == 'pass'` of the next step
does not recognise — that next step raises (`none`) instead of
remaining at the sentinel. -/
theorem lmul_mac_unit_sentinel_bug :
    lmulMacUnit .e3m4 (.bits 112) (.bits 16) (.bits 0) = some (.str "input pass") ∧
    MacV.str "input pass" ≠ MacV.str "pass" ∧
    lmulMacUnit .e3m4 (.bits 16) (.bits 16) (.str "input pass") = none ∧
    macUnit .e3m4 (.bits 16) (.bits 16) (.str "pass") = some (.str "pass") ∧
    fasaMacUnit .e3m4 (.bits 16) (.bits 16) (.str "pass") = some (.str "pass") := by
  refine ⟨by decide, by decide, by decide, ?_, ?_⟩ <;> decide

/-! ### C10: unknown format identifiers are rejected -/

/-- C10.  Every public operation taking a format name fails (raises,
modelled by `none`) for any identifier outside the four known ones;
no default format is substituted. -/
theorem unknown_format_rejected (s : String)
    (h : s ≠ "e2m5" ∧ s ≠ "e3m4" ∧ s ≠ "e4m3" ∧ s ≠ "e5m2") :
    getFormatParams s = none ∧ fmtOfString s = none ∧
    (∀ p, decodeChecked s p = none) ∧ (∀ x, encodeChecked s x = none) ∧
    mkAdder s = none ∧ mkMultiplier s = none ∧ mkMatrixMultiplier s = none := by
  obtain ⟨h1, h2, h3, h4⟩ := h
  have hg : getFormatParams s = none := by simp [getFormatParams, h1, h2, h3, h4]
  have hf : fmtOfString s = none := by simp [fmtOfString, h1, h2, h3, h4]
  simp [decodeChecked, encodeChecked, mkAdder, mkMultiplier, mkMatrixMultiplier, hg, hf]

/-- Witness for `unknown_format_rejected` at the unknown name "e4m2". -/
theorem unknown_format_rejected_witness :
    decodeChecked "e4m2" 0 = none ∧ encodeChecked "e4m2" (.fin 1) = none ∧
    mkAdder "e4m2" = none ∧ mkMultiplier "e4m2" = none ∧
    mkMatrixMultiplier "e4m2" = none := by
  have h := unknown_format_rejected "e4m2" ⟨by decide, by decide, by decide, by decide⟩
  exact ⟨h.2.2.1 0, h.2.2.2.1 (.fin 1), h.2.2.2.2.1, h.2.2.2.2.2.1, h.2.2.2.2.2.2⟩

/-! ### C8: the L_Mul formula -/

/-- C8.  For every format and all patterns, `L_Mul` computes
`(-1)^(sa xor sb) * (1 + fa + fb + 2^(-lm)) * 2^(ea+eb)` with the
operand unpacking and `lm` policy stated by the claim. -/
theorem l_mul_formula (f : Fmt) (a b : ℕ) : lMulVal f a b = lMulClaim f a b := by
  rcases signXor_cases a b with hs | hs <;>
    by_cases hea : expField f a = 0 <;> by_cases heb : expField f b = 0 <;>
      simp only [lMulVal, lMulClaim, emCul, lmOf, hs, hea, heb, if_true, if_false,
        and_true, and_false, true_and, false_and, if_pos, eq_self_iff_true,
        pow_zero, pow_one, not_true, not_false_iff] <;>
      simp [hea, heb]

/-! ### C9: the FASA formula -/

unseal Rat.mul Rat.inv Rat.add Rat.sub in
/-- C9 counterexample.  At `a = b = 00000000` (e3m4) the field
concatenation sum is `00000000`, whose 4-bit exponent slice is all
zeros; the claim's reconstruction (denormal rule: exponent `1 - bias`,
no implicit 1) yields 0, but `FASA` returns `2^-6 = 1/64`: `_em_cul`'s
denormal test compares the 4-character exponent string against the
3-character `'000'` and never fires. -/
theorem fasa_formula_cex : fasaVal .e3m4 0 0 = 1/64 ∧ fasaClaim .e3m4 0 0 = 0 := by
  decide

/-- C9 amended: `FASA` computes the claimed pipeline except that the
reconstruction of the sum's exponent/mantissa split *always* uses the
normal-number rule (implicit leading 1, exponent = field − bias), also
when the exponent slice is all-zero. -/
theorem fasa_formula (f : Fmt) (a b : ℕ) : fasaVal f a b = fasaAmend f a b := by
  have hne : ¬ (f.eBits + 1 = f.eBits ∧
      (expField f a * 2 ^ f.mBits + mantField f a +
        (expField f b * 2 ^ f.mBits + mantField f b)) / 2 ^ f.mBits = 0) := by
    rintro ⟨h, -⟩; omega
  rcases signXor_cases a b with hs | hs <;>
    simp only [fasaVal, fasaAmend, emCul, hs, if_neg hne] <;> simp

/-! ### C2 infrastructure: bracketing specs for the log helpers -/

lemma lg2F_spec : ∀ (fuel n : ℕ), 1 ≤ n → n ≤ fuel →
    2 ^ lg2F fuel n ≤ n ∧ n < 2 ^ (lg2F fuel n + 1) := by
  intro fuel
  induction fuel with
  | zero => intro n h1 h2; omega
  | succ fuel ih =>
    intro n h1 h2
    by_cases hn : n ≤ 1
    · have : n = 1 := by omega
      simp [lg2F, this]
    · have h2' : n / 2 ≤ fuel := by omega
      have h1' : 1 ≤ n / 2 := by omega
      obtain ⟨ha, hb⟩ := ih (n / 2) h1' h2'
      have : lg2F (fuel + 1) n = lg2F fuel (n / 2) + 1 := by
        simp [lg2F, hn]
      rw [this]
      constructor
      · calc 2 ^ (lg2F fuel (n / 2) + 1) = 2 * 2 ^ lg2F fuel (n / 2) := by ring
        _ ≤ 2 * (n / 2) := by omega
        _ ≤ n := by omega
      · have : n < 2 * (2 ^ (lg2F fuel (n / 2) + 1)) := by omega
        calc n < 2 * 2 ^ (lg2F fuel (n / 2) + 1) := this
        _ = 2 ^ (lg2F fuel (n / 2) + 1 + 1) := by ring
  
lemma natLog2_spec (n : ℕ) (h : 1 ≤ n) :
    2 ^ natLog2 n ≤ n ∧ n < 2 ^ (natLog2 n + 1) :=
  lg2F_spec n n h le_rfl

lemma clg2F_eq_zero (fuel a b : ℕ) (h : a ≤ b) : clg2F fuel a b = 0 := by
  cases fuel <;> simp [clg2F, h]

lemma clg2F_spec : ∀ (fuel a b : ℕ), 1 ≤ b → b < a → a ≤ b * 2 ^ fuel →
    a ≤ b * 2 ^ clg2F fuel a b ∧ b * 2 ^ clg2F fuel a b < 2 * a := by
  intro fuel
  induction fuel with
  | zero => intro a b h1 h2 h3; simp at h3; omega
  | succ fuel ih =>
    intro a b h1 h2 h3
    have hnb : ¬ a ≤ b := by omega
    have hrec : clg2F (fuel + 1) a b = clg2F fuel a (2 * b) + 1 := by
      simp [clg2F, hnb]
    rw [hrec]
    by_cases hab : a ≤ 2 * b
    · rw [clg2F_eq_zero fuel a (2 * b) hab]
      constructor
      · have : b * 2 ^ (0 + 1) = 2 * b := by ring
        omega
      · have : b * 2 ^ (0 + 1) = 2 * b := by ring
        omega
    · have h3' : a ≤ 2 * b * 2 ^ fuel := by
        have : b * 2 ^ (fuel + 1) = 2 * b * 2 ^ fuel := by ring
        omega
      obtain ⟨ha, hb⟩ := ih a (2 * b) (by omega) (by omega) h3'
      constructor
      · have : b * 2 ^ (clg2F fuel a (2 * b) + 1) = 2 * b * 2 ^ clg2F fuel a (2 * b) := by
          ring
        omega
      · have : b * 2 ^ (clg2F fuel a (2 * b) + 1) = 2 * b * 2 ^ clg2F fuel a (2 * b) := by
          ring
        omega

lemma flog2_spec (x : ℚ) (hx : 0 < x) :
    (2 : ℚ) ^ flog2 x ≤ x ∧ x < 2 ^ (flog2 x + 1) := by
  have hnum : 0 < x.num := Rat.num_pos.2 hx
  have hden : 0 < x.den := x.pos
  have hp1 : 1 ≤ x.num.toNat := by omega
  have hdenQ : (0 : ℚ) < (x.den : ℚ) := by exact_mod_cast hden
  have hxpq : x = (x.num.toNat : ℚ) / (x.den : ℚ) := by
    rw [show ((x.num.toNat : ℕ) : ℚ) = ((x.num.toNat : ℤ) : ℚ) by push_cast; ring,
      Int.toNat_of_nonneg (le_of_lt hnum), Rat.num_div_den]
  by_cases hle : x.den ≤ x.num.toNat
  · -- x ≥ 1: flog2 x = natLog2 (num / den)
    have hfl : flog2 x = (natLog2 (x.num.toNat / x.den) : ℤ) := by
      simp only [flog2]
      rw [if_pos hle]
    have hL := natLog2_spec (x.num.toNat / x.den) ((Nat.one_le_div_iff hden).2 hle)
    rw [hfl]
    constructor
    · rw [zpow_natCast]
      calc (2 : ℚ) ^ natLog2 (x.num.toNat / x.den)
          = ((2 ^ natLog2 (x.num.toNat / x.den) : ℕ) : ℚ) := by push_cast; ring
      _ ≤ ((x.num.toNat / x.den : ℕ) : ℚ) := by exact_mod_cast hL.1
      _ ≤ (x.num.toNat : ℚ) / (x.den : ℚ) := by
            rw [le_div_iff₀ hdenQ]
            exact_mod_cast Nat.div_mul_le_self _ _
      _ = x := hxpq.symm
    · have hplt : x.num.toNat < (x.num.toNat / x.den + 1) * x.den := by
        have h1 := Nat.div_add_mod x.num.toNat x.den
        have h2 : x.num.toNat % x.den < x.den := Nat.mod_lt _ hden
        calc x.num.toNat = x.den * (x.num.toNat / x.den) + x.num.toNat % x.den :=
              h1.symm
        _ < x.den * (x.num.toNat / x.den) + x.den := by omega
        _ = (x.num.toNat / x.den + 1) * x.den := by ring
      have h5 : ((2 ^ (natLog2 (x.num.toNat / x.den) + 1) : ℕ) : ℚ) =
          (2 : ℚ) ^ ((natLog2 (x.num.toNat / x.den) : ℤ) + 1) := by
        rw [show ((natLog2 (x.num.toNat / x.den) : ℤ) + 1) =
            ((natLog2 (x.num.toNat / x.den) + 1 : ℕ) : ℤ) by push_cast; ring,
          zpow_natCast]
        push_cast; ring
      rw [← h5]
      calc x = (x.num.toNat : ℚ) / (x.den : ℚ) := hxpq
      _ < ((x.num.toNat / x.den + 1 : ℕ) : ℚ) := by
            rw [div_lt_iff₀ hdenQ]
            exact_mod_cast hplt
      _ ≤ ((2 ^ (natLog2 (x.num.toNat / x.den) + 1) : ℕ) : ℚ) := by
            exact_mod_cast hL.2
  · -- x < 1: flog2 x = -(clg2F den den num)
    have hfl : flog2 x = -(clg2F x.den x.den x.num.toNat : ℤ) := by
      simp only [flog2]
      rw [if_neg hle]
    have hfuel : x.den ≤ x.num.toNat * 2 ^ x.den :=
      le_trans (le_of_lt (Nat.lt_two_pow x.den)) (Nat.le_mul_of_pos_left _ (by omega))
    obtain ⟨ha, hb⟩ := clg2F_spec x.den x.den x.num.toNat hp1 (by omega) hfuel
    set j := clg2F x.den x.den x.num.toNat with hj
    rw [hfl]
    have h2jQ : (0 : ℚ) < (2 : ℚ) ^ (j : ℕ) := by positivity
    constructor
    · have hrw : (2 : ℚ) ^ (-(j : ℤ)) = 1 / (2 : ℚ) ^ (j : ℕ) := by
        rw [zpow_neg, zpow_natCast, inv_eq_one_div]
      have hc : ((x.den : ℕ) : ℚ) ≤ ((x.num.toNat * 2 ^ j : ℕ) : ℚ) := by
        exact_mod_cast ha
      calc (2 : ℚ) ^ (-(j : ℤ)) = 1 / (2 : ℚ) ^ (j : ℕ) := hrw
      _ ≤ (x.num.toNat : ℚ) / (x.den : ℚ) := by
            rw [div_le_div_iff₀ h2jQ hdenQ]
            push_cast at hc ⊢
            linarith
      _ = x := hxpq.symm
    · have hrw : (2 : ℚ) ^ (-(j : ℤ) + 1) = 2 / (2 : ℚ) ^ (j : ℕ) := by
        rw [show (-(j : ℤ) + 1) = (1 - (j : ℤ)) by ring,
          zpow_sub₀ (two_ne_zero), zpow_one, zpow_natCast]
      have hc : ((x.num.toNat * 2 ^ j : ℕ) : ℚ) < ((2 * x.den : ℕ) : ℚ) := by
        exact_mod_cast hb
      calc x = (x.num.toNat : ℚ) / (x.den : ℚ) := hxpq
      _ < 2 / (2 : ℚ) ^ (j : ℕ) := by
            rw [div_lt_div_iff₀ hdenQ h2jQ]
            push_cast at hc ⊢
            linarith
      _ = (2 : ℚ) ^ (-(j : ℤ) + 1) := hrw.symm

lemma flog2_unique (x : ℚ) (e : ℤ) (h1 : (2 : ℚ) ^ e ≤ x) (h2 : x < 2 ^ (e + 1)) :
    flog2 x = e := by
  have hx : 0 < x := lt_of_lt_of_le (zpow_pos (by norm_num) e) h1
  obtain ⟨ha, hb⟩ := flog2_spec x hx
  by_contra hne
  rcases lt_or_gt_of_ne hne with hlt | hgt
  · have : (2 : ℚ) ^ (flog2 x + 1) ≤ 2 ^ e :=
      zpow_le_zpow_right₀ (by norm_num) (by omega)
    exact absurd (hb.trans_le this) (not_lt.2 h1)
  · have : (2 : ℚ) ^ (e + 1) ≤ 2 ^ flog2 x :=
      zpow_le_zpow_right₀ (by norm_num) (by omega)
    exact absurd (h2.trans_le this) (not_lt.2 ha)

lemma rndE_abs_le (x : ℚ) : |(rndE x : ℚ) - x| ≤ 1/2 := by
  simp only [rndE]
  have h1 : (⌊x⌋ : ℚ) ≤ x := Int.floor_le x
  have h2 : x < ⌊x⌋ + 1 := Int.lt_floor_add_one x
  split_ifs with hf hg he <;> rw [abs_le] <;> constructor <;> push_cast <;> linarith

lemma rndE_nonneg (x : ℚ) (hx : 0 ≤ x) : 0 ≤ rndE x := by
  simp only [rndE]
  have := Int.floor_nonneg.2 hx
  split_ifs <;> omega

lemma signBit_pat (f : Fmt) (s : Bool) (e mt : ℕ)
    (he : e < 2 ^ f.eBits) (hmt : mt < 2 ^ f.mBits) :
    signBit (pat f s e mt) = cond s 1 0 := by
  cases f <;> cases s <;>
    simp only [pat, signBit, Fmt.eBits, Fmt.mBits, cond] at * <;> omega

lemma expField_pat (f : Fmt) (s : Bool) (e mt : ℕ)
    (he : e < 2 ^ f.eBits) (hmt : mt < 2 ^ f.mBits) :
    expField f (pat f s e mt) = e := by
  cases f <;> cases s <;>
    simp only [pat, expField, Fmt.eBits, Fmt.mBits, cond] at * <;> omega

lemma mantField_pat (f : Fmt) (s : Bool) (e mt : ℕ)
    (he : e < 2 ^ f.eBits) (hmt : mt < 2 ^ f.mBits) :
    mantField f (pat f s e mt) = mt := by
  cases f <;> cases s <;>
    simp only [pat, mantField, Fmt.eBits, Fmt.mBits, cond] at * <;> omega

lemma flagOf_pat_normal (f : Fmt) (s : Bool) (e mt : ℕ) (he0 : e ≠ 0)
    (heA : e ≠ f.allOnes) (he : e < 2 ^ f.eBits) (hmt : mt < 2 ^ f.mBits) :
    flagOf f (pat f s e mt) = .normalized := by
  simp only [flagOf, expField_pat f s e mt he hmt, mantField_pat f s e mt he hmt]
  rw [if_neg he0, if_neg heA]

lemma flagOf_pat_denorm (f : Fmt) (s : Bool) (mt : ℕ) (hmt0 : mt ≠ 0)
    (hmt : mt < 2 ^ f.mBits) :
    flagOf f (pat f s 0 mt) = .denormalized := by
  have he : (0 : ℕ) < 2 ^ f.eBits := by positivity
  simp only [flagOf, expField_pat f s 0 mt he hmt, mantField_pat f s 0 mt he hmt]
  rw [if_pos trivial, if_neg hmt0]

lemma flagOf_pat_zero (f : Fmt) (s : Bool) :
    flagOf f (pat f s 0 0) = .zero := by
  have he : (0 : ℕ) < 2 ^ f.eBits := by positivity
  have hmt : (0 : ℕ) < 2 ^ f.mBits := by positivity
  simp only [flagOf, expField_pat f s 0 0 he hmt, mantField_pat f s 0 0 he hmt]
  rw [if_pos trivial, if_pos trivial]

lemma decodeV_pat_normal (f : Fmt) (s : Bool) (e mt : ℕ) (he0 : e ≠ 0)
    (heA : e ≠ f.allOnes) (he : e < 2 ^ f.eBits) (hmt : mt < 2 ^ f.mBits) :
    decodeV f (pat f s e mt) =
      .fin ((cond s (-1) 1 : ℚ) * ((1 + (mt : ℚ) / 2 ^ f.mBits) * 2 ^ ((e : ℤ) - f.bias))) := by
  simp only [decodeV, signBit_pat f s e mt he hmt, expField_pat f s e mt he hmt,
    mantField_pat f s e mt he hmt]
  rw [if_neg he0, if_neg heA]
  cases s <;> simp

lemma decodeV_pat_denorm (f : Fmt) (s : Bool) (mt : ℕ) (hmt0 : mt ≠ 0)
    (hmt : mt < 2 ^ f.mBits) :
    decodeV f (pat f s 0 mt) =
      .fin ((cond s (-1) 1 : ℚ) * ((mt : ℚ) / 2 ^ f.mBits * 2 ^ ((1 : ℤ) - f.bias))) := by
  have he : (0 : ℕ) < 2 ^ f.eBits := by positivity
  simp only [decodeV, signBit_pat f s 0 mt he hmt, expField_pat f s 0 mt he hmt,
    mantField_pat f s 0 mt he hmt]
  rw [if_pos trivial, if_neg hmt0]
  cases s <;> simp

lemma decodeV_pat_zero (f : Fmt) (s : Bool) :
    decodeV f (pat f s 0 0) = .fin 0 := by
  have he : (0 : ℕ) < 2 ^ f.eBits := by positivity
  have hmt : (0 : ℕ) < 2 ^ f.mBits := by positivity
  simp only [decodeV, signBit_pat f s 0 0 he hmt, expField_pat f s 0 0 he hmt,
    mantField_pat f s 0 0 he hmt]
  rw [if_pos trivial, if_pos trivial]

lemma fmt_facts (f : Fmt) :
    1 ≤ f.bias ∧ 2 ≤ f.mBits ∧ 3 ≤ f.allOnes ∧ f.allOnes < 2 ^ f.eBits := by
  cases f <;> decide

lemma two_zpow_pos (i : ℤ) : (0 : ℚ) < 2 ^ i := zpow_pos (by norm_num) i

lemma two_zpow_le (i j : ℤ) (h : i ≤ j) : (2 : ℚ) ^ i ≤ 2 ^ j :=
  zpow_le_zpow_right₀ (by norm_num) h

lemma ulpQ_of_pos (f : Fmt) (x : ℚ) (hx : 0 < x) :
    ulpQ f x = 2 ^ (max (flog2 x) (1 - (f.bias : ℤ)) - f.mBits) := by
  rw [ulpQ, abs_of_pos hx]

lemma ulpQ_pos (f : Fmt) (x : ℚ) : 0 < ulpQ f x := two_zpow_pos _

lemma ulpQ_ge_norm (f : Fmt) (x : ℚ) (hx : 0 < x) :
    (2 : ℚ) ^ (flog2 x - (f.mBits : ℤ)) ≤ ulpQ f x := by
  rw [ulpQ_of_pos f x hx]
  exact two_zpow_le _ _ (by have := le_max_left (flog2 x) (1 - (f.bias : ℤ)); omega)

lemma ulpQ_ge_denorm (f : Fmt) (x : ℚ) (hx : 0 < x) :
    (2 : ℚ) ^ (1 - (f.bias : ℤ) - f.mBits) ≤ ulpQ f x := by
  rw [ulpQ_of_pos f x hx]
  exact two_zpow_le _ _ (by have := le_max_right (flog2 x) (1 - (f.bias : ℤ)); omega)

set_option maxHeartbeats 1000000 in
lemma encodeMag_spec (f : Fmt) (x : ℚ) (hx : 0 < x) (hle : x ≤ maxNormal f) :
    ∃ r : ℚ, |r - x| ≤ ulpQ f x ∧
      ∀ s : Bool,
        decodeV f (pat f s (encodeMag f x).1 (encodeMag f x).2) = .fin (cond s (-r) r) ∧
        flagOf f (pat f s (encodeMag f x).1 (encodeMag f x).2) ≠ .infinity ∧
        flagOf f (pat f s (encodeMag f x).1 (encodeMag f x).2) ≠ .nanC := by
  obtain ⟨hB, hM, hAO, hAOe⟩ := fmt_facts f
  obtain ⟨hk1, hk2⟩ := flog2_spec x hx
  have hz : (2 : ℚ) ≠ 0 := by norm_num
  have hmnat : ((2 : ℚ) ^ (f.mBits : ℕ)) = (2 : ℚ) ^ ((f.mBits : ℕ) : ℤ) :=
    (zpow_natCast 2 f.mBits).symm
  have hmQpos : (0 : ℚ) < 2 ^ (f.mBits : ℕ) := by positivity
  have hcast2m : ((2 ^ f.mBits : ℕ) : ℤ) = (2 : ℤ) ^ f.mBits := by push_cast; ring
  by_cases h1 : ((f.allOnes : ℤ) ≤ flog2 x + (f.bias : ℤ))
  · -- overflow branch is unreachable under x ≤ maxNormal
    exfalso
    have hlt : maxNormal f < 2 ^ ((f.allOnes : ℤ) - f.bias) := by
      rw [maxNormal]
      have h2 : (2 : ℚ) - 2 ^ (-(f.mBits : ℤ)) < 2 := by
        have := two_zpow_pos (-(f.mBits : ℤ)); linarith
      have h3 : (2 : ℚ) ^ ((f.allOnes : ℤ) - f.bias) =
          2 * 2 ^ ((f.allOnes : ℤ) - 1 - f.bias) := by
        rw [show ((f.allOnes : ℤ) - f.bias) = 1 + ((f.allOnes : ℤ) - 1 - f.bias) by ring,
          zpow_add₀ hz, zpow_one]
      rw [h3]
      exact mul_lt_mul_of_pos_right h2 (two_zpow_pos _)
    have h4 : (2 : ℚ) ^ ((f.allOnes : ℤ) - f.bias) ≤ 2 ^ flog2 x :=
      two_zpow_le _ _ (by omega)
    linarith
  · by_cases h2 : (flog2 x + (f.bias : ℤ) ≤ 0)
    · -- denormal / underflow region: x < 2^(1-bias)
      have hxsmall : x < 2 ^ ((1 : ℤ) - f.bias) :=
        lt_of_lt_of_le hk2 (two_zpow_le _ _ (by omega))
      by_cases h3 : (flog2 x + (f.bias : ℤ) < -((f.mBits : ℤ) - 1))
      · -- total underflow to zero
        have hem : encodeMag f x = (0, 0) := by
          simp only [encodeMag]
          rw [if_neg h1, if_pos h2, if_pos h3]
        refine ⟨0, ?_, ?_⟩
        · have hxlt : x < 2 ^ ((1 : ℤ) - f.bias - f.mBits) :=
            lt_of_lt_of_le hk2 (two_zpow_le _ _ (by omega))
          rw [abs_of_nonpos (by linarith)]
          have := ulpQ_ge_denorm f x hx
          linarith
        · intro s
          rw [hem]
          refine ⟨?_, ?_, ?_⟩
          · rw [decodeV_pat_zero]; cases s <;> simp
          · rw [flagOf_pat_zero]; simp
          · rw [flagOf_pat_zero]; simp
      · -- denormal encoding path
        have hεM : (2 : ℚ) ^ ((1 : ℤ) - f.bias - f.mBits) * 2 ^ (f.mBits : ℕ) =
            2 ^ ((1 : ℤ) - f.bias) := by
          rw [hmnat, ← zpow_add₀ hz]
          congr 1
          ring
        have hargε : x / 2 ^ ((1 : ℤ) - (f.bias : ℤ)) * 2 ^ f.mBits *
            2 ^ ((1 : ℤ) - f.bias - f.mBits) = x := by
          have h0 : (2 : ℚ) ^ ((1 : ℤ) - (f.bias : ℤ)) ≠ 0 := (two_zpow_pos _).ne'
          calc x / 2 ^ ((1 : ℤ) - (f.bias : ℤ)) * 2 ^ f.mBits *
              2 ^ ((1 : ℤ) - f.bias - f.mBits)
              = x * (2 ^ ((1 : ℤ) - f.bias - f.mBits) * 2 ^ (f.mBits : ℕ)) /
                2 ^ ((1 : ℤ) - (f.bias : ℤ)) := by ring
          _ = x * 2 ^ ((1 : ℤ) - f.bias) / 2 ^ ((1 : ℤ) - (f.bias : ℤ)) := by rw [hεM]
          _ = x := by field_simp
        have hargpos : 0 < x / 2 ^ ((1 : ℤ) - (f.bias : ℤ)) * 2 ^ f.mBits := by
          have := two_zpow_pos ((1 : ℤ) - (f.bias : ℤ))
          positivity
        have harglt : x / 2 ^ ((1 : ℤ) - (f.bias : ℤ)) * 2 ^ f.mBits < 2 ^ (f.mBits : ℕ) := by
          have hdiv : x / 2 ^ ((1 : ℤ) - (f.bias : ℤ)) < 1 :=
            (div_lt_one (two_zpow_pos _)).2 hxsmall
          calc x / 2 ^ ((1 : ℤ) - (f.bias : ℤ)) * 2 ^ f.mBits <
              1 * 2 ^ (f.mBits : ℕ) := by
                exact mul_lt_mul_of_pos_right hdiv hmQpos
          _ = 2 ^ (f.mBits : ℕ) := one_mul _
        set ag := x / 2 ^ ((1 : ℤ) - (f.bias : ℤ)) * 2 ^ f.mBits with hag
        set mant := rndE ag with hmant
        have hmr := rndE_abs_le ag
        rw [← hmant] at hmr
        have hm0 : 0 ≤ mant := rndE_nonneg ag (le_of_lt hargpos)
        have hmle : mant ≤ 2 ^ f.mBits := by
          have habs := (abs_le.1 hmr).2
          have h2' : (mant : ℚ) < ((2 ^ f.mBits + 1 : ℤ) : ℚ) := by
            push_cast
            linarith
          have h3' : mant < 2 ^ f.mBits + 1 := by exact_mod_cast h2'
          omega
        have hεpos := two_zpow_pos ((1 : ℤ) - (f.bias : ℤ) - f.mBits)
        have hulpd := ulpQ_ge_denorm f x hx
        by_cases h4 : ((2 ^ f.mBits : ℤ) ≤ mant)
        · -- denormal rounds up to the smallest normal 2^(1-bias)
          have hem : encodeMag f x = (1, 0) := by
            simp only [encodeMag]
            rw [if_neg h1, if_pos h2, if_neg h3, if_pos h4]
          have hone_lt : (1 : ℕ) < 2 ^ f.eBits := by
            have : (3 : ℕ) ≤ 2 ^ f.eBits := le_of_lt (lt_of_le_of_lt hAO hAOe)
            omega
          refine ⟨(1 + (0 : ℚ) / 2 ^ f.mBits) * 2 ^ (((1 : ℕ) : ℤ) - f.bias), ?_, ?_⟩
          · have hr : (1 + (0 : ℚ) / 2 ^ f.mBits) * 2 ^ (((1 : ℕ) : ℤ) - f.bias) =
                2 ^ ((1 : ℤ) - (f.bias : ℤ)) := by norm_num
            rw [hr]
            -- x is within ε/2 below 2^(1-bias)
            have hge : (2 ^ f.mBits : ℚ) - 1/2 ≤ ag := by
              have : ((2 ^ f.mBits : ℤ) : ℚ) ≤ (mant : ℚ) := by exact_mod_cast h4
              have habs := (abs_le.1 hmr).2
              push_cast at this
              linarith
            have hxge : 2 ^ ((1 : ℤ) - (f.bias : ℤ)) -
                2 ^ ((1 : ℤ) - f.bias - f.mBits) / 2 ≤ x := by
              calc 2 ^ ((1 : ℤ) - (f.bias : ℤ)) - 2 ^ ((1 : ℤ) - f.bias - f.mBits) / 2
                  = ((2 ^ f.mBits : ℚ) - 1/2) * 2 ^ ((1 : ℤ) - f.bias - f.mBits) := by
                    rw [sub_mul, mul_comm ((2:ℚ)^(f.mBits:ℕ)) _, hεM]
                    ring
              _ ≤ ag * 2 ^ ((1 : ℤ) - f.bias - f.mBits) :=
                    mul_le_mul_of_nonneg_right hge (le_of_lt hεpos)
              _ = x := hargε
            rw [abs_le]
            constructor <;> linarith
          · intro s
            rw [hem]
            refine ⟨?_, ?_, ?_⟩
            · rw [decodeV_pat_normal f s 1 0 one_ne_zero (by omega) hone_lt (by positivity)]
              cases s <;> simp
            · rw [flagOf_pat_normal f s 1 0 one_ne_zero (by omega) hone_lt (by positivity)]
              simp
            · rw [flagOf_pat_normal f s 1 0 one_ne_zero (by omega) hone_lt (by positivity)]
              simp
        · by_cases h5 : (mant = 0)
          · -- rounds down to zero
            have hem : encodeMag f x = (0, 0) := by
              simp only [encodeMag]
              rw [if_neg h1, if_pos h2, if_neg h3, if_neg h4, if_pos h5]
            refine ⟨0, ?_, ?_⟩
            · have hagle : ag ≤ 1/2 := by
                have habs := (abs_le.1 hmr).1
                rw [h5] at habs
                push_cast at habs
                linarith
              have hxle : x ≤ 2 ^ ((1 : ℤ) - f.bias - f.mBits) / 2 := by
                calc x = ag * 2 ^ ((1 : ℤ) - f.bias - f.mBits) := hargε.symm
                _ ≤ 1/2 * 2 ^ ((1 : ℤ) - f.bias - f.mBits) :=
                      mul_le_mul_of_nonneg_right hagle (le_of_lt hεpos)
                _ = 2 ^ ((1 : ℤ) - f.bias - f.mBits) / 2 := by ring
              rw [abs_of_nonpos (by linarith)]
              linarith
            · intro s
              rw [hem]
              refine ⟨?_, ?_, ?_⟩
              · rw [decodeV_pat_zero]; cases s <;> simp
              · rw [flagOf_pat_zero]; simp
              · rw [flagOf_pat_zero]; simp
          · -- proper denormal pattern (0, mant)
            have hem : encodeMag f x = (0, mant.toNat) := by
              simp only [encodeMag]
              rw [if_neg h1, if_pos h2, if_neg h3, if_neg h4, if_neg h5]
            have hmtlt : mant.toNat < 2 ^ f.mBits := by omega
            have hmtne : mant.toNat ≠ 0 := by omega
            have hmtQ : ((mant.toNat : ℕ) : ℚ) = (mant : ℚ) := by
              have := Int.toNat_of_nonneg hm0
              exact_mod_cast congrArg (fun z : ℤ => (z : ℚ)) this
            refine ⟨(mant.toNat : ℚ) / 2 ^ f.mBits * 2 ^ ((1 : ℤ) - (f.bias : ℤ)), ?_, ?_⟩
            · have hr : (mant.toNat : ℚ) / 2 ^ f.mBits * 2 ^ ((1 : ℤ) - (f.bias : ℤ)) =
                  (mant : ℚ) * 2 ^ ((1 : ℤ) - f.bias - f.mBits) := by
                rw [hmtQ]
                rw [div_mul_eq_mul_div, mul_comm]
                rw [← hεM]
                field_simp
                ring
              rw [hr]
              have hdiff : (mant : ℚ) * 2 ^ ((1 : ℤ) - f.bias - f.mBits) - x =
                  ((mant : ℚ) - ag) * 2 ^ ((1 : ℤ) - f.bias - f.mBits) := by
                calc (mant : ℚ) * 2 ^ ((1 : ℤ) - f.bias - f.mBits) - x
                    = (mant : ℚ) * 2 ^ ((1 : ℤ) - f.bias - f.mBits) -
                      ag * 2 ^ ((1 : ℤ) - f.bias - f.mBits) := by rw [hargε]
                _ = ((mant : ℚ) - ag) * 2 ^ ((1 : ℤ) - f.bias - f.mBits) := by ring
              rw [hdiff, abs_mul, abs_of_pos hεpos]
              calc |(mant : ℚ) - ag| * 2 ^ ((1 : ℤ) - f.bias - f.mBits) ≤
                  1/2 * 2 ^ ((1 : ℤ) - f.bias - f.mBits) :=
                    mul_le_mul_of_nonneg_right hmr (le_of_lt hεpos)
              _ ≤ 2 ^ ((1 : ℤ) - f.bias - f.mBits) := by linarith
              _ ≤ ulpQ f x := hulpd
            · intro s
              rw [hem]
              refine ⟨?_, ?_, ?_⟩
              · rw [decodeV_pat_denorm f s mant.toNat hmtne hmtlt]
                cases s <;> simp
              · rw [flagOf_pat_denorm f s mant.toNat hmtne hmtlt]
                simp
              · rw [flagOf_pat_denorm f s mant.toNat hmtne hmtlt]
                simp
    · -- normal region: 0 < expRaw < allOnes
      have her0 : 0 < flog2 x + (f.bias : ℤ) := by omega
      have herA : flog2 x + (f.bias : ℤ) < f.allOnes := by omega
      have hkpos := two_zpow_pos (flog2 x)
      have hf0 : 0 ≤ x / 2 ^ flog2 x - 1 := by
        have : (1 : ℚ) ≤ x / 2 ^ flog2 x := (one_le_div hkpos).2 hk1
        linarith
      have hf1 : x / 2 ^ flog2 x - 1 < 1 := by
        have h2' : x / 2 ^ flog2 x < 2 := by
          rw [div_lt_iff₀ hkpos]
          calc x < 2 ^ (flog2 x + 1) := hk2
          _ = 2 * 2 ^ flog2 x := by rw [zpow_add₀ hz, zpow_one]; ring
        linarith
      have hxf : (1 + (x / 2 ^ flog2 x - 1)) * 2 ^ flog2 x = x := by
        field_simp
      set fr := x / 2 ^ flog2 x - 1 with hfr
      set ag := fr * 2 ^ f.mBits with hag
      set mant := rndE ag with hmant
      have hargpos : 0 ≤ ag := mul_nonneg hf0 (le_of_lt hmQpos)
      have harglt : ag < 2 ^ (f.mBits : ℕ) := by
        calc ag < 1 * 2 ^ (f.mBits : ℕ) := mul_lt_mul_of_pos_right hf1 hmQpos
        _ = 2 ^ (f.mBits : ℕ) := one_mul _
      have hmr := rndE_abs_le ag
      rw [← hmant] at hmr
      have hm0 : 0 ≤ mant := rndE_nonneg ag hargpos
      have hmle : mant ≤ 2 ^ f.mBits := by
        have habs := (abs_le.1 hmr).2
        have h2' : (mant : ℚ) < ((2 ^ f.mBits + 1 : ℤ) : ℚ) := by
          push_cast
          linarith
        have h3' : mant < 2 ^ f.mBits + 1 := by exact_mod_cast h2'
        omega
      have hulpn : (2 : ℚ) ^ (flog2 x - (f.mBits : ℤ)) ≤ ulpQ f x := ulpQ_ge_norm f x hx
      have h2km : (2 : ℚ) ^ flog2 x = 2 ^ (flog2 x - (f.mBits : ℤ)) * 2 ^ (f.mBits : ℕ) := by
        rw [hmnat, ← zpow_add₀ hz]
        congr 1
        ring
      by_cases h4 : (mant = 2 ^ f.mBits)
      · -- mantissa carry
        have hagge : (2 ^ f.mBits : ℚ) - 1/2 ≤ ag := by
          have habs := (abs_le.1 hmr).2
          rw [h4] at habs
          push_cast at habs
          linarith
        have hfge : (1 - fr) * 2 ^ (f.mBits : ℕ) ≤ 1/2 := by
          have : (2 ^ f.mBits : ℚ) - ag ≤ 1/2 := by linarith
          calc (1 - fr) * 2 ^ (f.mBits : ℕ) = 2 ^ (f.mBits : ℕ) - ag := by
                rw [hag]; ring
          _ ≤ 1/2 := this
        by_cases h5 : ((f.allOnes : ℤ) ≤ flog2 x + (f.bias : ℤ) + 1)
        · -- carry overflow is unreachable under x ≤ maxNormal
          exfalso
          have hker : flog2 x = (f.allOnes : ℤ) - 1 - f.bias := by omega
          have hxge : (2 - 1 / (2 * 2 ^ (f.mBits : ℕ))) * 2 ^ flog2 x ≤ x := by
            have h6 : 2 - 1 / (2 * 2 ^ (f.mBits : ℕ)) ≤ 1 + fr := by
              have h7 : 1 - fr ≤ 1 / (2 * 2 ^ (f.mBits : ℕ)) := by
                rw [le_div_iff₀ (by positivity)]
                calc (1 - fr) * (2 * 2 ^ (f.mBits : ℕ)) =
                    2 * ((1 - fr) * 2 ^ (f.mBits : ℕ)) := by ring
                _ ≤ 2 * (1/2) := by linarith
                _ = 1 := by norm_num
              linarith
            calc (2 - 1 / (2 * 2 ^ (f.mBits : ℕ))) * 2 ^ flog2 x
                ≤ (1 + fr) * 2 ^ flog2 x := mul_le_mul_of_nonneg_right h6 (le_of_lt hkpos)
            _ = x := hxf
          have hmax : maxNormal f < (2 - 1 / (2 * 2 ^ (f.mBits : ℕ))) * 2 ^ flog2 x := by
            rw [maxNormal, hker]
            have h8 : (2 : ℚ) ^ (-(f.mBits : ℤ)) = 1 / 2 ^ (f.mBits : ℕ) := by
              rw [zpow_neg, hmnat, inv_eq_one_div]
            have h9 : (2 : ℚ) - 2 ^ (-(f.mBits : ℤ)) < 2 - 1 / (2 * 2 ^ (f.mBits : ℕ)) := by
              rw [h8]
              have h10 : 1 / (2 * 2 ^ (f.mBits : ℕ)) < 1 / (2 ^ (f.mBits : ℕ) : ℚ) := by
                rw [div_lt_div_iff₀ (by positivity) hmQpos]
                linarith
              linarith
            exact mul_lt_mul_of_pos_right h9 (two_zpow_pos _)
          linarith
        · -- carry into the next exponent, still normal
          have hem : encodeMag f x = ((flog2 x + (f.bias : ℤ) + 1).toNat, 0) := by
            simp only [encodeMag]
            rw [if_neg h1, if_neg h2, if_pos h4, if_neg h5]
          set e1 := (flog2 x + (f.bias : ℤ) + 1).toNat with he1
          have he1v : ((e1 : ℕ) : ℤ) = flog2 x + (f.bias : ℤ) + 1 := by omega
          have he1ne : e1 ≠ 0 := by omega
          have he1A : e1 ≠ f.allOnes := by omega
          have he1lt : e1 < 2 ^ f.eBits := by omega
          refine ⟨(1 + (0 : ℚ) / 2 ^ f.mBits) * 2 ^ ((e1 : ℤ) - f.bias), ?_, ?_⟩
          · have hr : (1 + (0 : ℚ) / 2 ^ f.mBits) * 2 ^ ((e1 : ℤ) - f.bias) =
                2 ^ (flog2 x + 1) := by
              rw [he1v, show flog2 x + (f.bias : ℤ) + 1 - (f.bias : ℤ) = flog2 x + 1 by ring]
              norm_num
            rw [hr]
            have hrx : (2 : ℚ) ^ (flog2 x + 1) - x = (1 - fr) * 2 ^ flog2 x := by
              calc (2 : ℚ) ^ (flog2 x + 1) - x
                  = 2 ^ (flog2 x + 1) - (1 + fr) * 2 ^ flog2 x := by rw [hxf]
              _ = (1 - fr) * 2 ^ flog2 x := by
                    rw [zpow_add₀ hz, zpow_one]; ring
            have hb1 : (2 : ℚ) ^ (flog2 x + 1) - x ≤ 2 ^ (flog2 x - (f.mBits : ℤ)) := by
              rw [hrx]
              calc (1 - fr) * 2 ^ flog2 x
                  = ((1 - fr) * 2 ^ (f.mBits : ℕ)) * 2 ^ (flog2 x - (f.mBits : ℤ)) := by
                    rw [h2km]; ring
              _ ≤ (1/2) * 2 ^ (flog2 x - (f.mBits : ℤ)) := by
                    have := two_zpow_pos (flog2 x - (f.mBits : ℤ))
                    nlinarith
              _ ≤ 2 ^ (flog2 x - (f.mBits : ℤ)) := by
                    have := two_zpow_pos (flog2 x - (f.mBits : ℤ))
                    linarith
            rw [abs_le]
            constructor
            · linarith
            · have : x < 2 ^ (flog2 x + 1) := hk2
              have := ulpQ_pos f x
              linarith
          · intro s
            rw [hem]
            refine ⟨?_, ?_, ?_⟩
            · rw [decodeV_pat_normal f s e1 0 he1ne he1A he1lt (by positivity)]
              cases s <;> simp
            · rw [flagOf_pat_normal f s e1 0 he1ne he1A he1lt (by positivity)]
              simp
            · rw [flagOf_pat_normal f s e1 0 he1ne he1A he1lt (by positivity)]
              simp
      · -- no carry: normal pattern (expRaw, mant)
        have hmlt : mant < 2 ^ f.mBits := by omega
        have hem : encodeMag f x = ((flog2 x + (f.bias : ℤ)).toNat, mant.toNat) := by
          simp only [encodeMag]
          rw [if_neg h1, if_neg h2, if_neg h4]
        set e1 := (flog2 x + (f.bias : ℤ)).toNat with he1
        have he1v : ((e1 : ℕ) : ℤ) = flog2 x + (f.bias : ℤ) := by omega
        have he1ne : e1 ≠ 0 := by omega
        have he1A : e1 ≠ f.allOnes := by omega
        have he1lt : e1 < 2 ^ f.eBits := by omega
        have hmtlt : mant.toNat < 2 ^ f.mBits := by omega
        have hmtQ : ((mant.toNat : ℕ) : ℚ) = (mant : ℚ) := by
          have := Int.toNat_of_nonneg hm0
          exact_mod_cast congrArg (fun z : ℤ => (z : ℚ)) this
        refine ⟨(1 + (mant.toNat : ℚ) / 2 ^ f.mBits) * 2 ^ ((e1 : ℤ) - f.bias), ?_, ?_⟩
        · have hr : (1 + (mant.toNat : ℚ) / 2 ^ f.mBits) * 2 ^ ((e1 : ℤ) - f.bias) =
              (1 + (mant : ℚ) / 2 ^ f.mBits) * 2 ^ flog2 x := by
            rw [hmtQ, he1v]
            ring_nf
          rw [hr]
          have hdiff : (1 + (mant : ℚ) / 2 ^ f.mBits) * 2 ^ flog2 x - x =
              ((mant : ℚ) - ag) * 2 ^ (flog2 x - (f.mBits : ℤ)) := by
            calc (1 + (mant : ℚ) / 2 ^ f.mBits) * 2 ^ flog2 x - x
                = (1 + (mant : ℚ) / 2 ^ f.mBits) * 2 ^ flog2 x -
                  (1 + fr) * 2 ^ flog2 x := by rw [hxf]
            _ = ((mant : ℚ) / 2 ^ f.mBits - fr) * 2 ^ flog2 x := by ring
            _ = ((mant : ℚ) / 2 ^ f.mBits - fr) *
                  (2 ^ (flog2 x - (f.mBits : ℤ)) * 2 ^ (f.mBits : ℕ)) := by rw [h2km]
            _ = (((mant : ℚ) / 2 ^ f.mBits) * 2 ^ (f.mBits : ℕ) - ag) *
                  2 ^ (flog2 x - (f.mBits : ℤ)) := by rw [hag]; ring
            _ = ((mant : ℚ) - ag) * 2 ^ (flog2 x - (f.mBits : ℤ)) := by
                  rw [div_mul_cancel₀ _ (ne_of_gt hmQpos)]
          rw [hdiff, abs_mul, abs_of_pos (two_zpow_pos _)]
          calc |(mant : ℚ) - ag| * 2 ^ (flog2 x - (f.mBits : ℤ)) ≤
              1/2 * 2 ^ (flog2 x - (f.mBits : ℤ)) :=
                mul_le_mul_of_nonneg_right hmr (le_of_lt (two_zpow_pos _))
          _ ≤ 2 ^ (flog2 x - (f.mBits : ℤ)) := by
                have := two_zpow_pos (flog2 x - (f.mBits : ℤ))
                linarith
          _ ≤ ulpQ f x := hulpn
        · intro s
          rw [hem]
          refine ⟨?_, ?_, ?_⟩
          · rw [decodeV_pat_normal f s e1 mant.toNat he1ne he1A he1lt hmtlt]
            cases s <;> simp
          · rw [flagOf_pat_normal f s e1 mant.toNat he1ne he1A he1lt hmtlt]
            simp
          · rw [flagOf_pat_normal f s e1 mant.toNat he1ne he1A he1lt hmtlt]
            simp

lemma emCul_signed_val (f : Fmt) (p : ℕ)
    (h1 : flagOf f p ≠ .infinity) (h2 : flagOf f p ≠ .nanC) :
    (if signBit p = 1 then (-1 : ℚ) else 1) *
      ((1 + (emCul f f.eBits (expField f p) (mantField f p)).2) *
        2 ^ (emCul f f.eBits (expField f p) (mantField f p)).1) = decQ f p := by
  simp only [decQ, decodeV, emCul, EFloat.toQ]
  by_cases he : expField f p = 0
  · by_cases hmt : mantField f p = 0
    · simp [he, hmt]
    · simp only [he, hmt, if_pos, if_true, eq_self_iff_true, and_true, true_and,
        if_neg hmt]
      simp [he]
  · have hA : expField f p ≠ f.allOnes := by
      intro hAeq
      by_cases hmt : mantField f p = 0
      · exact h1 (by simp only [flagOf]; rw [if_neg he, if_pos hAeq, if_pos hmt])
      · exact h2 (by simp only [flagOf]; rw [if_neg he, if_pos hAeq, if_neg hmt])
    simp only [if_neg he, if_neg hA]
    simp [he]

lemma mulVal_eq_prod (f : Fmt) (a b : ℕ)
    (ha1 : flagOf f a ≠ .infinity) (ha2 : flagOf f a ≠ .nanC)
    (hb1 : flagOf f b ≠ .infinity) (hb2 : flagOf f b ≠ .nanC) :
    mulVal f a b = decQ f a * decQ f b := by
  rw [← emCul_signed_val f a ha1 ha2, ← emCul_signed_val f b hb1 hb2]
  simp only [mulVal]
  have hsplit : (2 : ℚ) ^ ((emCul f f.eBits (expField f a) (mantField f a)).1 +
      (emCul f f.eBits (expField f b) (mantField f b)).1) =
      2 ^ (emCul f f.eBits (expField f a) (mantField f a)).1 *
      2 ^ (emCul f f.eBits (expField f b) (mantField f b)).1 :=
    zpow_add₀ (by norm_num) _ _
  have hsa : signBit a = 0 ∨ signBit a = 1 := Nat.mod_two_eq_zero_or_one _
  have hsb : signBit b = 0 ∨ signBit b = 1 := Nat.mod_two_eq_zero_or_one _
  rcases hsa with hsa | hsa <;> rcases hsb with hsb | hsb <;>
    rw [hsa, hsb] <;>
    simp only [show (0 : ℕ) ^^^ 0 = 0 from rfl, show (0 : ℕ) ^^^ 1 = 1 from rfl,
      show (1 : ℕ) ^^^ 0 = 1 from rfl, show (1 : ℕ) ^^^ 1 = 0 from rfl] <;>
    norm_num <;> rw [hsplit] <;> ring

/-! ### C2: exact multiply, re-encoded, is correctly rounded -/

unseal Rat.mul Rat.inv Rat.add Rat.sub in
/-- C2 counterexample.  In e3m4 the pattern 111 (`01101111`) decodes to
15.5, a finite value; the product 15.5 · 15.5 = 240.25 overflows, and
`multiply` + `encode` return the infinity pattern, whose decoded value
is not within one ulp of the product (nor of any finite rounding of
it). -/
theorem multiply_exact_cex :
    flagOf .e3m4 111 = .normalized ∧
    decQ .e3m4 111 * decQ .e3m4 111 = 961/4 ∧
    flagOf .e3m4 (mulBin .e3m4 111 111) = .infinity ∧
    ¬ (|decQ .e3m4 (mulBin .e3m4 111 111) - decQ .e3m4 111 * decQ .e3m4 111| ≤
        ulpQ .e3m4 (decQ .e3m4 111 * decQ .e3m4 111)) := by
  decide

/-- C2 amended: for finite operands whose exact product does not exceed
the format's largest finite value, the binary result of
`multiply` (exact algorithm, `bin_output=True`) decodes to a finite
value within one unit in the last place of the true product (in fact
the round-to-nearest value). -/
theorem multiply_exact_correct (f : Fmt) (a b : ℕ)
    (ha1 : flagOf f a ≠ .infinity) (ha2 : flagOf f a ≠ .nanC)
    (hb1 : flagOf f b ≠ .infinity) (hb2 : flagOf f b ≠ .nanC)
    (hrange : |decQ f a * decQ f b| ≤ maxNormal f) :
    flagOf f (mulBin f a b) ≠ .infinity ∧ flagOf f (mulBin f a b) ≠ .nanC ∧
    |decQ f (mulBin f a b) - decQ f a * decQ f b| ≤ ulpQ f (decQ f a * decQ f b) := by
  have hmv := mulVal_eq_prod f a b ha1 ha2 hb1 hb2
  by_cases hP0 : decQ f a * decQ f b = 0
  · have hz : mulBin f a b = 0 := by
      rw [mulBin, hmv, hP0]
      simp [encodeE]
    have hpz : (0 : ℕ) = pat f false 0 0 := by simp [pat]
    have hflag : flagOf f (0 : ℕ) = .zero := by rw [hpz, flagOf_pat_zero]
    have hdec : decQ f (0 : ℕ) = 0 := by
      rw [decQ, hpz, decodeV_pat_zero]
      rfl
    rw [hz, hflag, hdec, hP0]
    refine ⟨by simp, by simp, ?_⟩
    simp only [sub_zero, abs_zero]
    exact le_of_lt (ulpQ_pos f _)
  · have habs : 0 < |decQ f a * decQ f b| := abs_pos.2 hP0
    obtain ⟨r, hr, hall⟩ := encodeMag_spec f |decQ f a * decQ f b| habs hrange
    have hbin : mulBin f a b = pat f (decide (decQ f a * decQ f b < 0))
        (encodeMag f |decQ f a * decQ f b|).1 (encodeMag f |decQ f a * decQ f b|).2 := by
      rw [mulBin, hmv]
      simp only [encodeE]
      rw [if_neg hP0]
    have hulp : ulpQ f |decQ f a * decQ f b| = ulpQ f (decQ f a * decQ f b) := by
      rw [ulpQ, ulpQ, abs_abs]
    rcases lt_or_gt_of_ne hP0 with hneg | hpos
    · have hdecide : decide (decQ f a * decQ f b < 0) = true := decide_eq_true hneg
      obtain ⟨hdv, hfi, hfn⟩ := hall true
      rw [hbin, hdecide]
      refine ⟨hfi, hfn, ?_⟩
      have hval : decQ f (pat f true (encodeMag f |decQ f a * decQ f b|).1
          (encodeMag f |decQ f a * decQ f b|).2) = -r := by
        rw [decQ, hdv]
        rfl
      rw [hval]
      have habsP : |decQ f a * decQ f b| = -(decQ f a * decQ f b) := abs_of_neg hneg
      have hstep : (-r) - decQ f a * decQ f b = -(r - |decQ f a * decQ f b|) := by
        rw [habsP]; ring
      rw [hstep, abs_neg, ← hulp]
      exact hr
    · have hdecide : decide (decQ f a * decQ f b < 0) = false :=
        decide_eq_false (not_lt.2 (le_of_lt hpos))
      obtain ⟨hdv, hfi, hfn⟩ := hall false
      rw [hbin, hdecide]
      refine ⟨hfi, hfn, ?_⟩
      have hval : decQ f (pat f false (encodeMag f |decQ f a * decQ f b|).1
          (encodeMag f |decQ f a * decQ f b|).2) = r := by
        rw [decQ, hdv]
        rfl
      rw [hval]
      have habsP : |decQ f a * decQ f b| = decQ f a * decQ f b := abs_of_pos hpos
      rw [← habsP]
      exact hr

unseal Rat.mul Rat.inv Rat.add Rat.sub in
/-- Witness for `multiply_exact_correct`: 0.375 · 0.375 in e3m4
(pattern 24 = `00011000`). -/
theorem multiply_exact_correct_witness :
    (flagOf .e3m4 24 ≠ .infinity ∧ flagOf .e3m4 24 ≠ .nanC ∧
     |decQ .e3m4 24 * decQ .e3m4 24| ≤ maxNormal .e3m4) ∧
    |decQ .e3m4 (mulBin .e3m4 24 24) - decQ .e3m4 24 * decQ .e3m4 24| ≤
      ulpQ .e3m4 (decQ .e3m4 24 * decQ .e3m4 24) :=
  ⟨⟨by decide, by decide, by decide⟩,
   (multiply_exact_correct .e3m4 24 24 (by decide) (by decide) (by decide) (by decide)
     (by decide)).2.2⟩
